import Mathlib

/-!
Shallow embedding of the core bookkeeping logic of the Gautam Pharma ledger
application (src/app.py) and proofs about it.

Python strings are modelled as Lean `String`s (lists of unicode scalar
characters); amounts, which Python holds as IEEE doubles, are modelled as
exact rationals `ℚ` (the float special values inf/nan and binary rounding
are outside the model); spreadsheet rows are records of strings, as the
sheet API delivers them.
-/

namespace Pharma

/-! ## Character and list utilities (models of Python str primitives) -/

/-- Model of the ASCII whitespace class used by Python `str.strip()`.
Unicode-only whitespace characters are outside the model. -/
def isSpaceCh (c : Char) : Bool :=
  c = ' ' || c = Char.ofNat 9 || c = Char.ofNat 10 || c = Char.ofNat 13 ||
  c = Char.ofNat 11 || c = Char.ofNat 12

/-- Decimal digit test on the underlying code point (ASCII '0'..'9'),
matching the characters `re` class `\d` matches on this data. -/
def isDigitCh (c : Char) : Bool := 48 ≤ c.toNat && c.toNat ≤ 57

/-- Model of Python `str.strip()`: drop leading and trailing whitespace. -/
def pyStrip (l : List Char) : List Char :=
  ((l.dropWhile isSpaceCh).reverse.dropWhile isSpaceCh).reverse

/-- Model of ASCII `str.upper()`: map a-z to A-Z, leave the rest.
Non-ASCII case mapping is outside the model (party codes are ASCII). -/
def upChar (c : Char) : Char :=
  if 97 ≤ c.toNat && c.toNat ≤ 122 then Char.ofNat (c.toNat - 32) else c

/-- Model of Python `str.upper()` character by character. -/
def pyUpper (l : List Char) : List Char := l.map upChar

/-- Fuel-driven worker for removeTok; the fuel only serves to make the
recursion structural (each step consumes one unit and at least one
character), so calling it with fuel = length is total. -/
def removeTokF (pat : List Char) : Nat → List Char → List Char
  | 0, l => l
  | _ + 1, [] => []
  | fuel + 1, c :: rest =>
    if pat ≠ [] ∧ pat.isPrefixOf (c :: rest) then
      removeTokF pat fuel ((c :: rest).drop pat.length)
    else
      c :: removeTokF pat fuel rest

/-- Model of Python `str.replace(pat, "")`: delete all non-overlapping
occurrences of `pat`, scanning left to right (exactly CPython's scan:
after a removal the scan resumes after the removed occurrence). -/
def removeTok (pat l : List Char) : List Char := removeTokF pat l.length l

/-- Numeric value of a list of decimal digit characters (most significant
first), the way `int()` reads a digit run. -/
def decVal (l : List Char) : Nat :=
  l.foldl (fun a c => a * 10 + (c.toNat - 48)) 0

/-! ## Model of Python float() on the decimal fragment

Python `float(s)` accepts an optional sign, a decimal mantissa with an
optional fraction part, and an optional exponent.  The special spellings
inf / infinity / nan and underscore digit separators are outside the model
(they cannot be represented in `ℚ` and never occur in this program's data). -/

/-- Parse the exponent tail (optional sign, then digits) and scale the
mantissa accordingly. -/
def pyFloatExp (mant : ℚ) (s : List Char) : Option ℚ :=
  let (sgn, ds) : Bool × List Char :=
    match s with
    | '+' :: t => (true, t)
    | '-' :: t => (false, t)
    | t => (true, t)
  if ds ≠ [] ∧ ds.all isDigitCh then
    some (if sgn then mant * 10 ^ decVal ds else mant / 10 ^ decVal ds)
  else none

/-- Parse an unsigned decimal literal: digits, optional '.' and fraction
digits, optional exponent. -/
def pyFloatUnsigned (s : List Char) : Option ℚ :=
  let ip := s.takeWhile isDigitCh
  let rest := s.dropWhile isDigitCh
  match rest with
  | [] => if ip = [] then none else some ((decVal ip : ℚ))
  | '.' :: rest2 =>
    let fp := rest2.takeWhile isDigitCh
    let rest3 := rest2.dropWhile isDigitCh
    if ip = [] ∧ fp = [] then none
    else
      let mant : ℚ := (decVal ip : ℚ) + (decVal fp : ℚ) / 10 ^ fp.length
      match rest3 with
      | [] => some mant
      | 'e' :: t => pyFloatExp mant t
      | 'E' :: t => pyFloatExp mant t
      | _ => none
  | 'e' :: t => if ip = [] then none else pyFloatExp ((decVal ip : ℚ)) t
  | 'E' :: t => if ip = [] then none else pyFloatExp ((decVal ip : ℚ)) t
  | _ => none

/-- Model of Python `float(s)` on an already-stripped string: optional
sign then an unsigned decimal literal; none when parsing fails (Python
raises ValueError, which the caller catches). -/
def pyFloat (s : List Char) : Option ℚ :=
  match s with
  | '+' :: rest => pyFloatUnsigned rest
  | '-' :: rest => (pyFloatUnsigned rest).map (fun q => -q)
  | _ => pyFloatUnsigned s

/-! ## clean_amount (src/app.py lines 185-187)

    def clean_amount(val):
        try: return float(str(val).replace(",", "").replace("₹", "").replace("Rs", "").strip())
        except: return 0.0
-/

/-- The string scrubbing performed inside `clean_amount`, in the source's
order: delete "," occurrences, then "₹", then "Rs", then strip whitespace. -/
def stripTokens (s : String) : List Char :=
  pyStrip (removeTok ['R', 's'] (removeTok ['₹'] (removeTok [','] s.data)))

/-- Embedding of `clean_amount`: parse the scrubbed string as a float,
and on any parse failure return 0 (the source catches all exceptions). -/
def clean_amount (val : String) : ℚ :=
  match pyFloat (stripTokens val) with
  | some q => q
  | none => 0

/-! ## Dates and parse_date (src/app.py lines 189-191)

    def parse_date(date_str):
        try: return pd.to_datetime(date_str).date()
        except: return None
-/

/-- Calendar date as produced by `pandas.Timestamp.date()`. -/
structure Date where
  y : Nat
  m : Nat
  d : Nat
deriving DecidableEq, Repr

/-- Gregorian leap year rule. -/
def isLeap (y : Nat) : Bool := y % 4 = 0 && (!(y % 100 = 0) || y % 400 = 0)

/-- Number of days in a month. -/
def daysInMonth (y m : Nat) : Nat :=
  if m = 2 then (if isLeap y then 29 else 28)
  else if m = 4 || m = 6 || m = 9 || m = 11 then 30
  else 31

/-- Validity of a (year, month, day) triple as a calendar date. -/
def validDate (y m d : Nat) : Bool :=
  1 ≤ m && m ≤ 12 && 1 ≤ d && d ≤ daysInMonth y m

/-- Comparison of dates (chronological order), the order Python's
datetime.date comparison implements. -/
def dateLe (a b : Date) : Bool :=
  if a.y < b.y then true
  else if b.y < a.y then false
  else if a.m < b.m then true
  else if b.m < a.m then false
  else a.d ≤ b.d

/-- Split a character list at a separator character. -/
def splitOnCh (sep : Char) (l : List Char) : List (List Char) :=
  match l with
  | [] => [[]]
  | c :: rest =>
    let r := splitOnCh sep rest
    if c = sep then [] :: r
    else
      match r with
      | [] => [[c]]
      | h :: t => (c :: h) :: t

/-- Parse a nonempty all-digit component. -/
def parseNatD (s : List Char) : Option Nat :=
  if s ≠ [] ∧ s.all isDigitCh then some (decVal s) else none

/-- Embedding of `parse_date`, i.e. of `pd.to_datetime(s).date()` with
pandas' DEFAULT `dayfirst=False`, on the formats this app stores and its
users type: ISO `YYYY-MM-DD`, and slash dates `A/B/YYYY`, which pandas
(via dateutil) reads month-first, falling back to day-first only when
the first component is not a valid month for the given day.  Every other
format (two-digit years, month names, dash-separated day-first dates,
times) is outside the model and returns none, as does any unparseable
string (the source catches the exception and returns None). -/
def parse_date (s : String) : Option Date :=
  match splitOnCh '-' s.data with
  | [ys, ms, ds] =>
    if ys.length = 4 then
      match parseNatD ys, parseNatD ms, parseNatD ds with
      | some y, some m, some d => if validDate y m d then some ⟨y, m, d⟩ else none
      | _, _, _ => none
    else none
  | _ =>
    match splitOnCh '/' s.data with
    | [as, bs, ys] =>
      if ys.length = 4 then
        match parseNatD as, parseNatD bs, parseNatD ys with
        | some a, some b, some y =>
          if validDate y a b then some ⟨y, a, b⟩
          else if validDate y b a then some ⟨y, b, a⟩
          else none
        | _, _, _ => none
      else none
    | _ => none

/-! ## Transaction rows and snapshots (section 6 of the spec; the sheet
collections CustomerDues, PaymentsReceived, GoodsReceived,
PaymentsToSuppliers fetched in src/app.py) -/

/-- Row of the CustomerDues sheet (a sale). -/
structure SaleRow where
  date : String
  party : String
  amount : String
deriving DecidableEq, Repr

/-- Row of the PaymentsReceived sheet (a customer receipt). -/
structure ReceiptRow where
  date : String
  party : String
  amount : String
  mode : String
deriving DecidableEq, Repr

/-- Row of the GoodsReceived sheet (a purchase from a supplier). -/
structure PurchaseRow where
  date : String
  supplier : String
  items : String
  amount : String
deriving DecidableEq, Repr

/-- Row of the PaymentsToSuppliers sheet (a payment to a supplier). -/
structure SuppPayRow where
  date : String
  supplier : String
  amount : String
  mode : String
deriving DecidableEq, Repr

/-- Snapshot of the four transaction collections, as read back from the
store by one screen invocation. -/
structure Snapshot where
  sales : List SaleRow
  receipts : List ReceiptRow
  purchases : List PurchaseRow
  suppPayments : List SuppPayRow
deriving DecidableEq, Repr

/-- Derived ledger line: date, description, debit, credit (the dict
appended to `ledger` in screen_ledger). -/
structure Entry where
  date : Date
  desc : String
  dr : ℚ
  cr : ℚ
deriving DecidableEq, Repr

/-! ## Ledger assembly (src/app.py lines 739-767, screen_ledger)

For each stream the source first filters rows whose party/supplier cell
(stringified) equals the selected party, then per row parses the date and
keeps the row when the date parsed and lies in [s, e]; kept rows become
debit/credit tagged entries.  Note the stored cell is NOT stripped before
the comparison; only the selected display name was stripped upstream by
extract_name_display. -/

/-- Entry produced (or not) from one CustomerDues row, mirroring
`ledger.append({... "Desc": "Sale", "Dr": clean_amount(...), "Cr": 0})`. -/
def saleRowEntry (party : String) (s e : Date) (r : SaleRow) : Option Entry :=
  if r.party == party then
    match parse_date r.date with
    | some d => if dateLe s d && dateLe d e then
        some ⟨d, "Sale", clean_amount r.amount, 0⟩ else none
    | none => none
  else none

/-- Entry produced from one PaymentsReceived row: debit 0, credit the
amount, description "Rx (mode)". -/
def receiptRowEntry (party : String) (s e : Date) (r : ReceiptRow) : Option Entry :=
  if r.party == party then
    match parse_date r.date with
    | some d => if dateLe s d && dateLe d e then
        some ⟨d, "Rx (" ++ r.mode ++ ")", 0, clean_amount r.amount⟩ else none
    | none => none
  else none

/-- Entry produced from one GoodsReceived row: debit 0, credit the
amount, description "Purchase (items)". -/
def purchaseRowEntry (party : String) (s e : Date) (r : PurchaseRow) : Option Entry :=
  if r.supplier == party then
    match parse_date r.date with
    | some d => if dateLe s d && dateLe d e then
        some ⟨d, "Purchase (" ++ r.items ++ ")", 0, clean_amount r.amount⟩ else none
    | none => none
  else none

/-- Entry produced from one PaymentsToSuppliers row: debit the amount,
credit 0, description "Paid Supplier (mode)". -/
def suppPayRowEntry (party : String) (s e : Date) (r : SuppPayRow) : Option Entry :=
  if r.supplier == party then
    match parse_date r.date with
    | some d => if dateLe s d && dateLe d e then
        some ⟨d, "Paid Supplier (" ++ r.mode ++ ")", clean_amount r.amount, 0⟩ else none
    | none => none
  else none

/-- The raw `ledger` list built by screen_ledger before sorting: the four
streams are scanned in source order (sales, receipts, purchases, supplier
payments). -/
def ledger_rows (party : String) (s e : Date) (snap : Snapshot) : List Entry :=
  snap.sales.filterMap (saleRowEntry party s e) ++
  snap.receipts.filterMap (receiptRowEntry party s e) ++
  snap.purchases.filterMap (purchaseRowEntry party s e) ++
  snap.suppPayments.filterMap (suppPayRowEntry party s e)

/-- Comparator used by `sort_values('Date')`: chronological by date. -/
def entryLe (a b : Entry) : Prop := dateLe a.date b.date = true

instance : DecidableRel entryLe := fun a b =>
  inferInstanceAs (Decidable (dateLe a.date b.date = true))

/-- The statement table: entries sorted ascending by date
(`pd.DataFrame(ledger).sort_values('Date')`; pandas promises no tie
order among equal dates — its default quicksort is unstable — so any
date sort is a faithful model; an insertion sort is used here). -/
def screen_ledger_entries (party : String) (s e : Date) (snap : Snapshot) : List Entry :=
  (ledger_rows party s e snap).insertionSort entryLe

/-- The reported net balance:
`bal = df['Debit'].sum() - df['Credit'].sum()`. -/
def screen_ledger_balance (party : String) (s e : Date) (snap : Snapshot) : ℚ :=
  ((screen_ledger_entries party s e snap).map Entry.dr).sum -
  ((screen_ledger_entries party s e snap).map Entry.cr).sum

/-- Running balances printed row by row by generate_pdf (src/app.py lines
252-261): `bal` starts at the accumulator and each row displays
`bal += dr - cr`. -/
def running_bals (bal : ℚ) : List Entry → List ℚ
  | [] => []
  | r :: rest => (bal + (r.dr - r.cr)) :: running_bals (bal + (r.dr - r.cr)) rest

/-! ## Market position aggregator (src/app.py lines 277-294, screen_home) -/

/-- Sum of cleaned amounts of the sales rows grouped under one party
name: `dues.groupby("Party")["Amount"].apply(... clean_amount ... sum)`. -/
def salesSumFor (dues : List SaleRow) (p : String) : ℚ :=
  ((dues.filter (fun r => r.party == p)).map (fun r => clean_amount r.amount)).sum

/-- Sum of cleaned amounts of the receipt rows grouped under one party. -/
def receiptsSumFor (pymt : List ReceiptRow) (p : String) : ℚ :=
  ((pymt.filter (fun r => r.party == p)).map (fun r => clean_amount r.amount)).sum

/-- Set of customer names appearing in either collection, each once:
`sales.index.union(cols.index)` (pandas returns them sorted; the fold
below is a commutative sum, so first-occurrence order is used). -/
def custIndex (dues : List SaleRow) (pymt : List ReceiptRow) : List String :=
  (dues.map SaleRow.party ++ pymt.map ReceiptRow.party).dedup

/-- Embedding of the receivable leg of screen_home: the totals are only
computed under `if not dues.empty and not pymt.empty:`; otherwise
total_receivable keeps its initial value 0. -/
def total_receivable (dues : List SaleRow) (pymt : List ReceiptRow) : ℚ :=
  if dues = [] ∨ pymt = [] then 0
  else (custIndex dues pymt).foldl (fun acc p =>
    if 0 < salesSumFor dues p - receiptsSumFor pymt p then
      acc + (salesSumFor dues p - receiptsSumFor pymt p)
    else acc) 0

/-- Sum of cleaned amounts of purchase rows grouped under one supplier. -/
def purchasesSumFor (goods : List PurchaseRow) (p : String) : ℚ :=
  ((goods.filter (fun r => r.supplier == p)).map (fun r => clean_amount r.amount)).sum

/-- Sum of cleaned amounts of supplier payment rows grouped under one
supplier. -/
def paidOutSumFor (spay : List SuppPayRow) (p : String) : ℚ :=
  ((spay.filter (fun r => r.supplier == p)).map (fun r => clean_amount r.amount)).sum

/-- Supplier names appearing in either collection, each once. -/
def suppIndex (goods : List PurchaseRow) (spay : List SuppPayRow) : List String :=
  (goods.map PurchaseRow.supplier ++ spay.map SuppPayRow.supplier).dedup

/-- Embedding of the payable leg of screen_home, guarded by
`if not goods.empty and not supp_pay.empty:`. -/
def total_payable (goods : List PurchaseRow) (spay : List SuppPayRow) : ℚ :=
  if goods = [] ∨ spay = [] then 0
  else (suppIndex goods spay).foldl (fun acc p =>
    if 0 < purchasesSumFor goods p - paidOutSumFor spay p then
      acc + (purchasesSumFor goods p - paidOutSumFor spay p)
    else acc) 0

/-! ## get_next_code (src/app.py lines 143-152) -/

/-- Normalisation applied to each stored code before matching:
`str(code).strip().upper()`. -/
def code_norm (c : String) : List Char := pyUpper (pyStrip c.data)

/-- First maximal run of decimal digits in a string, as a number: the
model of `int(re.search(r'\d+', code_str).group())`. -/
def firstNum : List Char → Option Nat
  | [] => none
  | c :: rest =>
    if isDigitCh c then some (decVal ((c :: rest).takeWhile isDigitCh))
    else firstNum rest

/-- Fuel-driven worker for natDigits (structural so that the kernel can
evaluate it; fuel = n + 1 always suffices since n / 10 < n for n ≥ 10). -/
def natDigitsF : Nat → Nat → List Char
  | 0, _ => []
  | fuel + 1, n =>
    if n < 10 then [Char.ofNat (48 + n)]
    else natDigitsF fuel (n / 10) ++ [Char.ofNat (48 + n % 10)]

/-- Decimal digit characters of a natural number, most significant
first, as produced by Python's str() / f-string formatting. -/
def natDigits (n : Nat) : List Char := natDigitsF (n + 1) n

/-- One iteration of the `max_num` loop of get_next_code: consider a
code when its normalisation starts with the prefix and contains a digit
run, and keep the larger number. -/
def code_step (pfx : String) (acc : Nat) (code : String) : Nat :=
  if pfx.data.isPrefixOf (code_norm code) then
    match firstNum (code_norm code) with
    | some n => if acc < n then n else acc
    | none => acc
  else acc

/-- Largest code number seen for the prefix: the `max_num` loop of
get_next_code. -/
def max_code_num (current_codes : List String) (pfx : String) : Nat :=
  current_codes.foldl (code_step pfx) 0

/-- Embedding of get_next_code: returns the prefix followed by the
decimal rendering of max_num + 1. -/
def get_next_code (current_codes : List String) (pfx : String) : String :=
  pfx ++ String.mk (natDigits (max_code_num current_codes pfx + 1))

/-! ## smart_match_party (src/app.py lines 193-195)

    def smart_match_party(scanned_name, existing_names):
        matches = difflib.get_close_matches(scanned_name, existing_names, n=1, cutoff=0.6)
        return matches[0] if matches else scanned_name

The similarity is difflib.SequenceMatcher's ratio: twice the total size
of the recursively chosen matching blocks divided by the sum of the two
lengths.  The model below reproduces the matcher without the junk
heuristic (SequenceMatcher's autojunk only activates for sequences of
200 or more characters, far beyond any party name) and without the
quick_ratio / real_quick_ratio upper-bound shortcuts of
get_close_matches, which never change which candidates pass the cutoff.
Ratios are exact rationals where CPython uses doubles. -/

/-- Length of the character-by-character common run at the head of two
suffixes. -/
def runLen : List Char → List Char → Nat
  | a :: as, b :: bs => if a = b then runLen as bs + 1 else 0
  | _, _ => 0

/-- All candidate matching blocks (i, j, run length at (i, j)) in the
scan order of find_longest_match: i ascending, then j ascending. -/
def candList (a b : List Char) : List (Nat × Nat × Nat) :=
  (List.range a.length).flatMap (fun i =>
    (List.range b.length).map (fun j => (i, j, runLen (a.drop i) (b.drop j))))

/-- Keep the better of two candidates; a strict comparison keeps the
earliest maximal block, which is the block find_longest_match returns
(earliest start in a, then earliest start in b). -/
def betterBlock (x y : Nat × Nat × Nat) : Nat × Nat × Nat :=
  if x.2.2 < y.2.2 then y else x

/-- Model of SequenceMatcher.find_longest_match over whole regions:
the longest matching block, earliest in a then in b, and (0, 0, 0)
when nothing matches. -/
def flm (a b : List Char) : Nat × Nat × Nat :=
  (candList a b).foldl betterBlock (0, 0, 0)

/-- Validity facts about the fold over candidates: the result is the
initial block or a genuine candidate. -/
theorem foldl_betterBlock_inv (l : List (Nat × Nat × Nat)) :
    ∀ acc : Nat × Nat × Nat, (l.foldl betterBlock acc) = acc ∨
      (l.foldl betterBlock acc) ∈ l := by
  induction l with
  | nil => intro acc; left; rfl
  | cons x xs ih =>
    intro acc
    rw [List.foldl_cons]
    rcases ih (betterBlock acc x) with h | h
    · rw [h]
      unfold betterBlock
      by_cases hx : acc.2.2 < x.2.2
      · right; simp [hx]
      · left; simp [hx]
    · right; exact List.mem_cons_of_mem _ h

/-- The fold never lowers the recorded run length. -/
theorem foldl_betterBlock_mono (l : List (Nat × Nat × Nat)) :
    ∀ acc : Nat × Nat × Nat, acc.2.2 ≤ (l.foldl betterBlock acc).2.2 := by
  induction l with
  | nil => intro acc; exact le_refl _
  | cons x xs ih =>
    intro acc
    rw [List.foldl_cons]
    refine le_trans ?_ (ih (betterBlock acc x))
    unfold betterBlock
    by_cases hx : acc.2.2 < x.2.2
    · simp [hx]; omega
    · simp [hx]

/-- The fold result stays at the initial block when no candidate beats
it. -/
theorem foldl_betterBlock_stay (l : List (Nat × Nat × Nat))
    (acc : Nat × Nat × Nat) (h : ∀ c ∈ l, c.2.2 ≤ acc.2.2) :
    l.foldl betterBlock acc = acc := by
  induction l with
  | nil => rfl
  | cons x xs ih =>
    rw [List.foldl_cons]
    have hx : x.2.2 ≤ acc.2.2 := h x (List.mem_cons_self _ _)
    have hb : betterBlock acc x = acc := by
      unfold betterBlock
      have : ¬ acc.2.2 < x.2.2 := by omega
      simp [this]
    rw [hb]
    exact ih (fun c hc => h c (List.mem_cons_of_mem _ hc))

theorem runLen_le_left : ∀ a b : List Char, runLen a b ≤ a.length := by
  intro a
  induction a with
  | nil => intro b; cases b <;> simp [runLen]
  | cons x xs ih =>
    intro b
    cases b with
    | nil => simp [runLen]
    | cons y ys =>
      by_cases hxy : x = y
      · simp only [runLen, if_pos hxy, List.length_cons]
        exact Nat.add_le_add_right (ih ys) 1
      · simp [runLen, hxy]

theorem runLen_le_right : ∀ a b : List Char, runLen a b ≤ b.length := by
  intro a
  induction a with
  | nil => intro b; cases b <;> simp [runLen]
  | cons x xs ih =>
    intro b
    cases b with
    | nil => simp [runLen]
    | cons y ys =>
      by_cases hxy : x = y
      · simp only [runLen, if_pos hxy, List.length_cons]
        exact Nat.add_le_add_right (ih ys) 1
      · simp [runLen, hxy]

/-- The common run really is a common prefix of the two suffixes. -/
theorem runLen_take_eq : ∀ a b : List Char,
    a.take (runLen a b) = b.take (runLen a b) := by
  intro a
  induction a with
  | nil => intro b; cases b <;> simp [runLen]
  | cons x xs ih =>
    intro b
    cases b with
    | nil => simp [runLen]
    | cons y ys =>
      by_cases hxy : x = y
      · simp only [runLen, if_pos hxy, List.take_succ_cons]
        rw [hxy, ih ys]
      · simp [runLen, hxy]

theorem runLen_self : ∀ a : List Char, runLen a a = a.length := by
  intro a
  induction a with
  | nil => simp [runLen]
  | cons x xs ih => simp [runLen, ih]

/-- Shape of candidates: membership in candList determines the block. -/
theorem mem_candList {a b : List Char} {c : Nat × Nat × Nat}
    (h : c ∈ candList a b) :
    c.1 < a.length ∧ c.2.1 < b.length ∧
      c.2.2 = runLen (a.drop c.1) (b.drop c.2.1) := by
  unfold candList at h
  rcases List.mem_flatMap.mp h with ⟨i, hi, hmem⟩
  rcases List.mem_map.mp hmem with ⟨j, hj, hc⟩
  subst hc
  exact ⟨List.mem_range.mp hi, List.mem_range.mp hj, rfl⟩

/-- Validity of the longest-match result: either the run length is zero,
or the result is a genuine in-range matching block. -/
theorem flm_valid (a b : List Char) :
    (flm a b).2.2 = 0 ∨
      (1 ≤ (flm a b).2.2 ∧ (flm a b).1 + (flm a b).2.2 ≤ a.length ∧
       (flm a b).2.1 + (flm a b).2.2 ≤ b.length ∧
       (a.drop (flm a b).1).take (flm a b).2.2 =
         (b.drop (flm a b).2.1).take (flm a b).2.2) := by
  rcases foldl_betterBlock_inv (candList a b) (0, 0, 0) with h | h
  · left
    show (flm a b).2.2 = 0
    unfold flm
    rw [h]
  · by_cases hz : (flm a b).2.2 = 0
    · left; exact hz
    · right
      have hmem : flm a b ∈ candList a b := h
      rcases mem_candList hmem with ⟨hia, hjb, hk⟩
      refine ⟨by omega, ?_, ?_, ?_⟩
      · have := runLen_le_left (a.drop (flm a b).1) (b.drop (flm a b).2.1)
        rw [← hk] at this
        simp only [List.length_drop] at this
        omega
      · have := runLen_le_right (a.drop (flm a b).1) (b.drop (flm a b).2.1)
        rw [← hk] at this
        simp only [List.length_drop] at this
        omega
      · rw [hk]; exact runLen_take_eq _ _

/-- Total size of the matching blocks chosen by SequenceMatcher's
recursive longest-block decomposition (the quantity `matches` whose
doubled value over the total length is .ratio()). -/
def matchTotal (a b : List Char) : Nat :=
  let t := flm a b
  if t.2.2 = 0 then 0
  else matchTotal (a.take t.1) (b.take t.2.1) + t.2.2 +
       matchTotal (a.drop (t.1 + t.2.2)) (b.drop (t.2.1 + t.2.2))
termination_by a.length + b.length
decreasing_by
  · rcases flm_valid a b with hz | ⟨h1, h2, h3, _⟩
    · exact absurd hz (by assumption)
    · simp only [List.length_take, List.length_drop]
      omega
  · rcases flm_valid a b with hz | ⟨h1, h2, h3, _⟩
    · exact absurd hz (by assumption)
    · simp only [List.length_drop]
      omega

theorem matchTotal_le_left : ∀ n a b, a.length + b.length ≤ n →
    matchTotal a b ≤ a.length := by
  intro n
  induction n with
  | zero =>
    intro a b hab
    have ha : a = [] := by
      cases a with
      | nil => rfl
      | cons x xs => simp at hab
    subst ha
    rw [matchTotal]
    simp [flm, candList]
  | succ n ih =>
    intro a b hab
    rw [matchTotal]
    rcases flm_valid a b with hz | ⟨h1, h2, h3, _⟩
    · simp [hz]
    · have hk : ¬ (flm a b).2.2 = 0 := by omega
      simp only [if_neg hk]
      have hL := ih (a.take (flm a b).1) (b.take (flm a b).2.1) (by
        simp only [List.length_take]
        omega)
      have hR := ih (a.drop ((flm a b).1 + (flm a b).2.2))
        (b.drop ((flm a b).2.1 + (flm a b).2.2)) (by
        simp only [List.length_drop]
        omega)
      simp only [List.length_take, List.length_drop] at hL hR
      omega

theorem matchTotal_le_right : ∀ n a b, a.length + b.length ≤ n →
    matchTotal a b ≤ b.length := by
  intro n
  induction n with
  | zero =>
    intro a b hab
    have ha : a = [] := by
      cases a with
      | nil => rfl
      | cons x xs => simp at hab
    subst ha
    rw [matchTotal]
    simp [flm, candList]
  | succ n ih =>
    intro a b hab
    rw [matchTotal]
    rcases flm_valid a b with hz | ⟨h1, h2, h3, _⟩
    · simp [hz]
    · have hk : ¬ (flm a b).2.2 = 0 := by omega
      simp only [if_neg hk]
      have hL := ih (a.take (flm a b).1) (b.take (flm a b).2.1) (by
        simp only [List.length_take]
        omega)
      have hR := ih (a.drop ((flm a b).1 + (flm a b).2.2))
        (b.drop ((flm a b).2.1 + (flm a b).2.2)) (by
        simp only [List.length_drop]
        omega)
      simp only [List.length_take, List.length_drop] at hL hR
      omega

/-- When every matched character is accounted for on both sides, the two
strings are equal.  This is the heart of "ratio 1 only for identical
strings". -/
theorem matchTotal_full : ∀ n a b, a.length + b.length ≤ n →
    matchTotal a b = a.length → matchTotal a b = b.length → a = b := by
  intro n
  induction n with
  | zero =>
    intro a b hab _ _
    have ha : a = [] := by
      cases a with
      | nil => rfl
      | cons x xs => simp at hab
    have hb : b = [] := by
      cases b with
      | nil => rfl
      | cons x xs => simp at hab
    rw [ha, hb]
  | succ n ih =>
    intro a b hab hA hB
    rw [matchTotal] at hA hB
    rcases flm_valid a b with hz | ⟨h1, h2, h3, hblk⟩
    · simp only [hz, if_pos rfl] at hA hB
      have ha : a = [] := List.length_eq_zero.mp hA.symm
      have hb : b = [] := List.length_eq_zero.mp hB.symm
      rw [ha, hb]
    · have hk : ¬ (flm a b).2.2 = 0 := by omega
      simp only [if_neg hk] at hA hB
      set i := (flm a b).1 with hi
      set j := (flm a b).2.1 with hj
      set k := (flm a b).2.2 with hkk
      have hsubL : (a.take i).length + (b.take j).length ≤ n := by
        simp only [List.length_take]; omega
      have hsubR : (a.drop (i + k)).length + (b.drop (j + k)).length ≤ n := by
        simp only [List.length_drop]; omega
      have hLa := matchTotal_le_left n (a.take i) (b.take j) hsubL
      have hLb := matchTotal_le_right n (a.take i) (b.take j) hsubL
      have hRa := matchTotal_le_left n (a.drop (i + k)) (b.drop (j + k)) hsubR
      have hRb := matchTotal_le_right n (a.drop (i + k)) (b.drop (j + k)) hsubR
      simp only [List.length_take, List.length_drop] at hLa hLb hRa hRb
      -- pin the sub-totals
      have hMLa : matchTotal (a.take i) (b.take j) = i := by omega
      have hMLb : matchTotal (a.take i) (b.take j) = j := by omega
      have hMRa : matchTotal (a.drop (i + k)) (b.drop (j + k)) =
          a.length - (i + k) := by omega
      have hMRb : matchTotal (a.drop (i + k)) (b.drop (j + k)) =
          b.length - (j + k) := by omega
      have hij : i = j := by omega
      have hLeq : a.take i = b.take j := by
        apply ih _ _ hsubL
        · rw [hMLa]; simp only [List.length_take]; omega
        · rw [hMLb]; simp only [List.length_take]; omega
      have hReq : a.drop (i + k) = b.drop (j + k) := by
        apply ih _ _ hsubR
        · rw [hMRa]; simp only [List.length_drop]
        · rw [hMRb]; simp only [List.length_drop]
      -- middle block
      have hMid : (a.drop i).take k = (b.drop j).take k := hblk
      have e1 : a = a.take i ++ ((a.drop i).take k ++ (a.drop i).drop k) := by
        rw [List.take_append_drop k (a.drop i), List.take_append_drop i a]
      have e2 : b = b.take j ++ ((b.drop j).take k ++ (b.drop j).drop k) := by
        rw [List.take_append_drop k (b.drop j), List.take_append_drop j b]
      rw [e1, e2, hLeq, hMid, List.drop_drop, List.drop_drop, hReq]

/-- Two successive folds both stay at an accumulator no candidate
beats. -/
theorem foldl_betterBlock_stay2 (l1 l2 : List (Nat × Nat × Nat))
    (acc : Nat × Nat × Nat)
    (h1 : ∀ c ∈ l1, c.2.2 ≤ acc.2.2) (h2 : ∀ c ∈ l2, c.2.2 ≤ acc.2.2) :
    l2.foldl betterBlock (l1.foldl betterBlock acc) = acc := by
  rw [foldl_betterBlock_stay l1 acc h1]
  exact foldl_betterBlock_stay l2 acc h2

theorem matchTotal_self (a : List Char) : matchTotal a a = a.length := by
  cases ha : a with
  | nil =>
    rw [matchTotal]
    simp [flm, candList]
  | cons x xs =>
    -- flm a a = (0, 0, a.length): the very first candidate is the whole
    -- string matched against itself, and no candidate can exceed it.
    have hflm : flm (x :: xs) (x :: xs) = (0, 0, (x :: xs).length) := by
      unfold flm candList
      have hrange : List.range (x :: xs).length =
          0 :: (List.range xs.length).map Nat.succ := by
        rw [List.length_cons, List.range_succ_eq_map]
      rw [hrange]
      simp only [List.flatMap_cons, List.map_cons, List.drop_zero,
        List.foldl_append, List.foldl_cons, runLen_self]
      have hfirst : betterBlock (0, 0, 0) (0, 0, (x :: xs).length) =
          (0, 0, (x :: xs).length) := by
        unfold betterBlock
        simp
      rw [hfirst]
      apply foldl_betterBlock_stay2
      · intro c hc
        rcases List.mem_map.mp hc with ⟨j, _, hc2⟩
        subst hc2
        exact le_trans (runLen_le_left _ _) (by simp)
      · intro c hc
        rcases List.mem_flatMap.mp hc with ⟨i, _, hmem⟩
        simp only [List.mem_cons, List.mem_map] at hmem
        rcases hmem with hc2 | ⟨j, _, hc2⟩ <;> subst hc2 <;>
          exact le_trans (runLen_le_left _ _) (by simp)
    rw [← ha] at hflm ⊢
    rw [matchTotal, hflm]
    have hlen : ¬ a.length = 0 := by rw [ha]; simp
    simp only [hlen, if_neg, if_false]
    have h0 : matchTotal [] [] = 0 := by
      rw [matchTotal]
      simp [flm, candList]
    simp only [List.take_zero, Nat.zero_add, List.drop_length, h0]
    omega

/-- SequenceMatcher.ratio(): 2 M / T, and 1.0 when both strings are
empty (difflib._calculate_ratio returns 1.0 for length 0). -/
def pyRatio (a b : List Char) : ℚ :=
  if a.length + b.length = 0 then 1
  else (2 * matchTotal a b : ℚ) / ((a.length + b.length : Nat) : ℚ)

theorem pyRatio_le_one (a b : List Char) : pyRatio a b ≤ 1 := by
  unfold pyRatio
  by_cases h : a.length + b.length = 0
  · simp [h]
  · simp only [if_neg h]
    have hma := matchTotal_le_left (a.length + b.length) a b (le_refl _)
    have hmb := matchTotal_le_right (a.length + b.length) a b (le_refl _)
    have hnum : (2 * matchTotal a b : ℚ) ≤ ((a.length + b.length : Nat) : ℚ) := by
      push_cast
      have : 2 * matchTotal a b ≤ a.length + b.length := by omega
      exact_mod_cast this
    have hden : (0 : ℚ) < ((a.length + b.length : Nat) : ℚ) := by
      exact_mod_cast Nat.pos_of_ne_zero h
    rw [div_le_one hden]
    exact hnum

theorem pyRatio_self (a : List Char) : pyRatio a a = 1 := by
  unfold pyRatio
  by_cases h : a.length + a.length = 0
  · simp [h]
  · simp only [if_neg h]
    rw [matchTotal_self]
    have hl0 : a.length ≠ 0 := by omega
    have hl : ((a.length : ℚ)) ≠ 0 := Nat.cast_ne_zero.mpr hl0
    have h2 : ((a.length + a.length : Nat) : ℚ) = 2 * (a.length : ℚ) := by
      push_cast
      ring
    rw [h2, div_self (mul_ne_zero two_ne_zero hl)]

theorem pyRatio_eq_one (a b : List Char) (h : pyRatio a b = 1) : a = b := by
  unfold pyRatio at h
  by_cases hz : a.length + b.length = 0
  · have ha : a = [] := by
      cases a with
      | nil => rfl
      | cons x xs => simp at hz
    have hb : b = [] := by
      cases b with
      | nil => rfl
      | cons x xs => simp at hz
    rw [ha, hb]
  · simp only [if_neg hz] at h
    have hden : ((a.length + b.length : Nat) : ℚ) ≠ 0 := by
      exact_mod_cast hz
    rw [div_eq_one_iff_eq hden] at h
    have hnat : 2 * matchTotal a b = a.length + b.length := by
      exact_mod_cast h
    have hma := matchTotal_le_left (a.length + b.length) a b (le_refl _)
    have hmb := matchTotal_le_right (a.length + b.length) a b (le_refl _)
    exact matchTotal_full (a.length + b.length) a b (le_refl _)
      (by omega) (by omega)

/-- Lexicographic order on character lists by code point, the order
Python uses to compare the (ratio, name) pairs on ratio ties inside
heapq.nlargest. -/
def strLt : List Char → List Char → Bool
  | [], [] => false
  | [], _ :: _ => true
  | _ :: _, [] => false
  | c :: cs, d :: ds => if c < d then true else if d < c then false else strLt cs ds

/-- One step of get_close_matches with n = 1: keep the running best
(ratio, candidate) pair, replacing it exactly when the new pair is
strictly larger in the tuple order. -/
def gcmStep (w : List Char) (best : Option (ℚ × List Char)) (x : List Char) :
    Option (ℚ × List Char) :=
  let r := pyRatio x w
  if (3 : ℚ) / 5 ≤ r then
    match best with
    | none => some (r, x)
    | some (br, bx) =>
      if br < r ∨ (br = r ∧ strLt bx x) then some (r, x) else some (br, bx)
  else best

/-- Model of difflib.get_close_matches(word, possibilities, n=1,
cutoff=0.6): the largest (ratio, candidate) pair among candidates whose
ratio against the word reaches the cutoff, none when no candidate
qualifies. -/
def get_close_matches1 (word : List Char) (possibilities : List (List Char)) :
    Option (List Char) :=
  (possibilities.foldl (gcmStep word) none).map Prod.snd

/-- Embedding of smart_match_party. -/
def smart_match_party (scanned_name : String) (existing_names : List String) :
    String :=
  match get_close_matches1 scanned_name.data (existing_names.map String.data) with
  | some m => String.mk m
  | none => scanned_name

/-- The step either keeps the accumulator or installs the current
candidate with its own ratio. -/
theorem gcmStep_cases (w : List Char) (acc : Option (ℚ × List Char))
    (p : List Char) :
    gcmStep w acc p = acc ∨ gcmStep w acc p = some (pyRatio p w, p) := by
  unfold gcmStep
  by_cases hc : (3 : ℚ) / 5 ≤ pyRatio p w
  · cases acc with
    | none => right; simp [hc]
    | some bp =>
      obtain ⟨bq, bl⟩ := bp
      by_cases hrep : bq < pyRatio p w ∨ (bq = pyRatio p w ∧ strLt bl p)
      · right; simp [hc, hrep]
      · left; simp [hc, hrep]
  · left; simp [hc]

/-- What the gcm fold records about its result: the kept pair is the
accumulator or a genuine candidate carrying its own ratio. -/
theorem gcm_fold_inv (w : List Char) :
    ∀ (ps : List (List Char)) (acc : Option (ℚ × List Char))
      (r : ℚ) (x : List Char),
      ps.foldl (gcmStep w) acc = some (r, x) →
      acc = some (r, x) ∨ (x ∈ ps ∧ r = pyRatio x w) := by
  intro ps
  induction ps with
  | nil =>
    intro acc r x h
    left
    exact h
  | cons p pt ih =>
    intro acc r x h
    rw [List.foldl_cons] at h
    rcases ih _ _ _ h with hacc | ⟨hmem, hr⟩
    · rcases gcmStep_cases w acc p with he | he
      · left
        rw [← he]
        exact hacc
      · rw [he] at hacc
        simp only [Option.some.injEq, Prod.mk.injEq] at hacc
        right
        refine ⟨?_, ?_⟩
        · rw [← hacc.2]
          exact List.mem_cons_self _ _
        · rw [← hacc.1, ← hacc.2]
    · right
      exact ⟨List.mem_cons_of_mem _ hmem, hr⟩

/-- The gcm fold started from a kept pair never returns none and never
lowers the recorded ratio. -/
theorem gcm_fold_mono (w : List Char) :
    ∀ (ps : List (List Char)) (br : ℚ) (bx : List Char),
      ∃ r x, ps.foldl (gcmStep w) (some (br, bx)) = some (r, x) ∧ br ≤ r := by
  intro ps
  induction ps with
  | nil =>
    intro br bx
    exact ⟨br, bx, rfl, le_refl _⟩
  | cons p pt ih =>
    intro br bx
    rw [List.foldl_cons]
    have hcases : gcmStep w (some (br, bx)) p = some (br, bx) ∨
        (gcmStep w (some (br, bx)) p = some (pyRatio p w, p) ∧
          br ≤ pyRatio p w) := by
      unfold gcmStep
      by_cases hc : (3 : ℚ) / 5 ≤ pyRatio p w
      · by_cases hrep : br < pyRatio p w ∨ (br = pyRatio p w ∧ strLt bx p)
        · right
          refine ⟨by simp [hc, hrep], ?_⟩
          rcases hrep with h | ⟨h, _⟩
          · exact le_of_lt h
          · exact le_of_eq h
        · left
          simp [hc, hrep]
      · left
        simp [hc]
    rcases hcases with he | ⟨he, hle⟩
    · rw [he]
      exact ih br bx
    · rw [he]
      rcases ih (pyRatio p w) p with ⟨r, x, hf, hl⟩
      exact ⟨r, x, hf, le_trans hle hl⟩

/-- Any qualifying candidate forces the fold to finish at a pair whose
ratio is at least the candidate's. -/
theorem gcm_fold_ge (w : List Char) :
    ∀ (ps : List (List Char)) (acc : Option (ℚ × List Char))
      (x : List Char), x ∈ ps → (3 : ℚ) / 5 ≤ pyRatio x w →
      ∃ r y, ps.foldl (gcmStep w) acc = some (r, y) ∧ pyRatio x w ≤ r := by
  intro ps
  induction ps with
  | nil =>
    intro acc x hx
    exact absurd hx (List.not_mem_nil _)
  | cons p pt ih =>
    intro acc x hx hcut
    rw [List.foldl_cons]
    rcases List.mem_cons.mp hx with hxp | hxt
    · subst hxp
      have hstep : ∃ br bx, gcmStep w acc x = some (br, bx) ∧
          pyRatio x w ≤ br := by
        unfold gcmStep
        cases acc with
        | none => exact ⟨pyRatio x w, x, by simp [hcut], le_refl _⟩
        | some bp =>
          obtain ⟨bq, bl⟩ := bp
          by_cases hrep : bq < pyRatio x w ∨ (bq = pyRatio x w ∧ strLt bl x)
          · exact ⟨pyRatio x w, x, by simp [hcut, hrep], le_refl _⟩
          · refine ⟨bq, bl, by simp [hcut, hrep], ?_⟩
            push_neg at hrep
            exact hrep.1
      rcases hstep with ⟨br, bx, he, hge⟩
      rw [he]
      rcases gcm_fold_mono w pt br bx with ⟨r, y, hf, hl⟩
      exact ⟨r, y, hf, le_trans hge hl⟩
    · exact ih (gcmStep w acc p) x hxt hcut

/-- A returned close match is one of the candidates. -/
theorem gcm1_mem {w : List Char} {ps : List (List Char)} {m : List Char}
    (h : get_close_matches1 w ps = some m) : m ∈ ps := by
  unfold get_close_matches1 at h
  cases hf : ps.foldl (gcmStep w) none with
  | none =>
    rw [hf] at h
    simp at h
  | some p =>
    obtain ⟨r, x⟩ := p
    rw [hf] at h
    rcases gcm_fold_inv w ps none r x hf with hacc | ⟨hmem, _⟩
    · exact absurd hacc (by simp)
    · have hxm : x = m := by simpa using h
      rwa [← hxm]

/-- Matching a known name against the known set returns it unchanged:
its self-ratio 1 beats the cutoff and strictly beats every distinct
candidate, since only equal strings reach ratio 1. -/
theorem gcm1_self {ps : List (List Char)} {m : List Char} (hm : m ∈ ps) :
    get_close_matches1 m ps = some m := by
  have hcut : (3 : ℚ) / 5 ≤ pyRatio m m := by
    rw [pyRatio_self]
    norm_num
  rcases gcm_fold_ge m ps none m hm hcut with ⟨r, y, hf, hge⟩
  rcases gcm_fold_inv m ps none r y hf with hacc | ⟨hmem, hr⟩
  · exact absurd hacc (by simp)
  · rw [pyRatio_self] at hge
    have h1 : r ≤ 1 := by
      rw [hr]
      exact pyRatio_le_one y m
    have hr1 : pyRatio y m = 1 := by
      rw [← hr]
      linarith
    have hym : y = m := pyRatio_eq_one y m hr1
    unfold get_close_matches1
    rw [hf, hym]
    rfl

/-- C9: the party name resolver is idempotent: resolving the result of a
first resolution against the same known-name set returns it unchanged,
i.e. smart_match_party (smart_match_party name K) K =
smart_match_party name K.  When the first call matched, the result is a
known name whose self-similarity 1 beats the 0.6 cutoff and, being the
only string of ratio 1, wins get_close_matches again; when it did not
match, the same computation runs twice. -/
theorem C9_theorem (name : String) (K : List String) :
    smart_match_party (smart_match_party name K) K =
      smart_match_party name K := by
  cases h : get_close_matches1 name.data (K.map String.data) with
  | none =>
    have hfix : smart_match_party name K = name := by
      unfold smart_match_party
      rw [h]
    rw [hfix]
    exact hfix
  | some m =>
    have hfix : smart_match_party name K = String.mk m := by
      unfold smart_match_party
      rw [h]
    have hmem : m ∈ K.map String.data := gcm1_mem h
    have hself : get_close_matches1 m (K.map String.data) = some m :=
      gcm1_self hmem
    rw [hfix]
    unfold smart_match_party
    have hdata : (String.mk m).data = m := rfl
    rw [hdata, hself]

/-! ## Ledger lemmas -/

theorem running_bals_length (b : ℚ) (es : List Entry) :
    (running_bals b es).length = es.length := by
  induction es generalizing b with
  | nil => rfl
  | cons r rest ih =>
    simp only [running_bals, List.length_cons]
    rw [ih]

theorem running_bals_ne_nil {es : List Entry} (h : es ≠ []) (b : ℚ) :
    running_bals b es ≠ [] := by
  cases es with
  | nil => exact absurd rfl h
  | cons r rest => simp [running_bals]

/-- Each displayed running balance is the starting balance plus the
cumulative debit-minus-credit of the rows printed so far. -/
theorem running_bals_get (es : List Entry) :
    ∀ (b : ℚ) (i : Nat) (h : i < (running_bals b es).length),
      (running_bals b es).get ⟨i, h⟩ =
        b + ((es.take (i + 1)).map (fun r => r.dr - r.cr)).sum := by
  induction es with
  | nil =>
    intro b i h
    simp [running_bals] at h
  | cons r rest ih =>
    intro b i h
    cases i with
    | zero =>
      simp [running_bals, List.take_succ_cons]
    | succ n =>
      have hlt : n < (running_bals (b + (r.dr - r.cr)) rest).length := by
        simp only [running_bals, List.length_cons] at h
        rw [running_bals_length] at h ⊢
        omega
      have : (running_bals b (r :: rest)).get ⟨n + 1, h⟩ =
          (running_bals (b + (r.dr - r.cr)) rest).get ⟨n, hlt⟩ := rfl
      rw [this, ih]
      simp only [List.take_succ_cons, List.map_cons, List.sum_cons]
      ring

/-- Sum of per-row (debit minus credit) splits into the difference of
the column sums. -/
theorem sum_dr_sub_cr : ∀ es : List Entry,
    (es.map (fun r => r.dr - r.cr)).sum =
      (es.map Entry.dr).sum - (es.map Entry.cr).sum := by
  intro es
  induction es with
  | nil => simp
  | cons r rest ih =>
    simp only [List.map_cons, List.sum_cons, ih]
    ring

/-- C5: the reported final balance is the sum of debits minus the sum of
credits over exactly the returned entries; the running balance printed at
each row is the cumulative debit-minus-credit up to that row, the last
one coincides with the final balance, and an empty entry set yields
balance zero. -/
theorem C5_theorem (party : String) (s e : Date) (snap : Snapshot) :
    screen_ledger_balance party s e snap =
      ((screen_ledger_entries party s e snap).map Entry.dr).sum -
        ((screen_ledger_entries party s e snap).map Entry.cr).sum ∧
    (∀ (i : Nat) (h : i <
        (running_bals 0 (screen_ledger_entries party s e snap)).length),
      (running_bals 0 (screen_ledger_entries party s e snap)).get ⟨i, h⟩ =
        (((screen_ledger_entries party s e snap).take (i + 1)).map
          (fun r => r.dr - r.cr)).sum) ∧
    (∀ h : screen_ledger_entries party s e snap ≠ [],
      (running_bals 0 (screen_ledger_entries party s e snap)).getLast
          (running_bals_ne_nil h 0) =
        screen_ledger_balance party s e snap) ∧
    (screen_ledger_entries party s e snap = [] →
      screen_ledger_balance party s e snap = 0) := by
  refine ⟨rfl, ?_, ?_, ?_⟩
  · intro i h
    rw [running_bals_get]
    ring
  · intro h
    set es := screen_ledger_entries party s e snap with hes
    have hlen : 0 < es.length := List.length_pos.mpr h
    rw [List.getLast_eq_get]
    rw [running_bals_get]
    have hlen2 : (running_bals 0 es).length = es.length := running_bals_length 0 es
    have htake : es.take ((running_bals 0 es).length - 1 + 1) = es := by
      rw [hlen2]
      rw [Nat.sub_add_cancel hlen]
      exact List.take_length es
    rw [htake, sum_dr_sub_cr]
    unfold screen_ledger_balance
    rw [← hes]
    ring
  · intro h
    unfold screen_ledger_balance
    rw [h]
    simp

/-! ## Stream filtering lemmas (C6, C7, C8) -/

/-- Date admission used by the statement builder: the row's date string
must parse and the parsed date must lie in the closed range. -/
def dateOkStr (s e : Date) (ds : String) : Bool :=
  match parse_date ds with
  | some d => dateLe s d && dateLe d e
  | none => false

/-- Entry built from an admitted sales row. -/
def saleEntry (r : SaleRow) : Entry :=
  ⟨(parse_date r.date).getD ⟨0, 0, 0⟩, "Sale", clean_amount r.amount, 0⟩

/-- Entry built from an admitted receipt row. -/
def receiptEntry (r : ReceiptRow) : Entry :=
  ⟨(parse_date r.date).getD ⟨0, 0, 0⟩, "Rx (" ++ r.mode ++ ")", 0,
    clean_amount r.amount⟩

/-- Entry built from an admitted purchase row. -/
def purchaseEntry (r : PurchaseRow) : Entry :=
  ⟨(parse_date r.date).getD ⟨0, 0, 0⟩, "Purchase (" ++ r.items ++ ")", 0,
    clean_amount r.amount⟩

/-- Entry built from an admitted supplier payment row. -/
def suppPayEntry (r : SuppPayRow) : Entry :=
  ⟨(parse_date r.date).getD ⟨0, 0, 0⟩, "Paid Supplier (" ++ r.mode ++ ")",
    clean_amount r.amount, 0⟩

theorem filterMap_sale (party : String) (s e : Date) : ∀ l : List SaleRow,
    l.filterMap (saleRowEntry party s e) =
      (l.filter (fun r => r.party == party && dateOkStr s e r.date)).map
        saleEntry := by
  intro l
  induction l with
  | nil => rfl
  | cons r t ih =>
    rw [List.filterMap_cons, List.filter_cons]
    by_cases hp : r.party == party
    · cases hd : parse_date r.date with
      | none =>
        have h1 : saleRowEntry party s e r = none := by
          unfold saleRowEntry
          rw [hd]
          simp [hp]
        have h2 : (r.party == party && dateOkStr s e r.date) = false := by
          unfold dateOkStr
          rw [hd]
          simp
        rw [h1, h2, ih]
        simp
      | some d =>
        by_cases hr : dateLe s d && dateLe d e
        · have h1 : saleRowEntry party s e r =
              some ⟨d, "Sale", clean_amount r.amount, 0⟩ := by
            unfold saleRowEntry
            rw [hd]
            simp [hp, hr]
          have h2 : (r.party == party && dateOkStr s e r.date) = true := by
            unfold dateOkStr
            rw [hd]
            simp [hp, hr]
          have h3 : saleEntry r = ⟨d, "Sale", clean_amount r.amount, 0⟩ := by
            unfold saleEntry
            rw [hd]
            rfl
          rw [h1, h2, ih]
          simp [h3]
        · have h1 : saleRowEntry party s e r = none := by
            unfold saleRowEntry
            rw [hd]
            simp [hp, hr]
          have h2 : (r.party == party && dateOkStr s e r.date) = false := by
            unfold dateOkStr
            rw [hd]
            simp [hr]
          rw [h1, h2, ih]
          simp
    · have h1 : saleRowEntry party s e r = none := by
        unfold saleRowEntry
        simp [hp]
      have h2 : (r.party == party && dateOkStr s e r.date) = false := by
        simp [hp]
      rw [h1, h2, ih]
      simp

theorem filterMap_receipt (party : String) (s e : Date) :
    ∀ l : List ReceiptRow,
    l.filterMap (receiptRowEntry party s e) =
      (l.filter (fun r => r.party == party && dateOkStr s e r.date)).map
        receiptEntry := by
  intro l
  induction l with
  | nil => rfl
  | cons r t ih =>
    rw [List.filterMap_cons, List.filter_cons]
    by_cases hp : r.party == party
    · cases hd : parse_date r.date with
      | none =>
        have h1 : receiptRowEntry party s e r = none := by
          unfold receiptRowEntry
          rw [hd]
          simp [hp]
        have h2 : (r.party == party && dateOkStr s e r.date) = false := by
          unfold dateOkStr
          rw [hd]
          simp
        rw [h1, h2, ih]
        simp
      | some d =>
        by_cases hr : dateLe s d && dateLe d e
        · have h1 : receiptRowEntry party s e r =
              some ⟨d, "Rx (" ++ r.mode ++ ")", 0, clean_amount r.amount⟩ := by
            unfold receiptRowEntry
            rw [hd]
            simp [hp, hr]
          have h2 : (r.party == party && dateOkStr s e r.date) = true := by
            unfold dateOkStr
            rw [hd]
            simp [hp, hr]
          have h3 : receiptEntry r =
              ⟨d, "Rx (" ++ r.mode ++ ")", 0, clean_amount r.amount⟩ := by
            unfold receiptEntry
            rw [hd]
            rfl
          rw [h1, h2, ih]
          simp [h3]
        · have h1 : receiptRowEntry party s e r = none := by
            unfold receiptRowEntry
            rw [hd]
            simp [hp, hr]
          have h2 : (r.party == party && dateOkStr s e r.date) = false := by
            unfold dateOkStr
            rw [hd]
            simp [hr]
          rw [h1, h2, ih]
          simp
    · have h1 : receiptRowEntry party s e r = none := by
        unfold receiptRowEntry
        simp [hp]
      have h2 : (r.party == party && dateOkStr s e r.date) = false := by
        simp [hp]
      rw [h1, h2, ih]
      simp

theorem filterMap_purchase (party : String) (s e : Date) :
    ∀ l : List PurchaseRow,
    l.filterMap (purchaseRowEntry party s e) =
      (l.filter (fun r => r.supplier == party && dateOkStr s e r.date)).map
        purchaseEntry := by
  intro l
  induction l with
  | nil => rfl
  | cons r t ih =>
    rw [List.filterMap_cons, List.filter_cons]
    by_cases hp : r.supplier == party
    · cases hd : parse_date r.date with
      | none =>
        have h1 : purchaseRowEntry party s e r = none := by
          unfold purchaseRowEntry
          rw [hd]
          simp [hp]
        have h2 : (r.supplier == party && dateOkStr s e r.date) = false := by
          unfold dateOkStr
          rw [hd]
          simp
        rw [h1, h2, ih]
        simp
      | some d =>
        by_cases hr : dateLe s d && dateLe d e
        · have h1 : purchaseRowEntry party s e r =
              some ⟨d, "Purchase (" ++ r.items ++ ")", 0,
                clean_amount r.amount⟩ := by
            unfold purchaseRowEntry
            rw [hd]
            simp [hp, hr]
          have h2 : (r.supplier == party && dateOkStr s e r.date) = true := by
            unfold dateOkStr
            rw [hd]
            simp [hp, hr]
          have h3 : purchaseEntry r =
              ⟨d, "Purchase (" ++ r.items ++ ")", 0, clean_amount r.amount⟩ := by
            unfold purchaseEntry
            rw [hd]
            rfl
          rw [h1, h2, ih]
          simp [h3]
        · have h1 : purchaseRowEntry party s e r = none := by
            unfold purchaseRowEntry
            rw [hd]
            simp [hp, hr]
          have h2 : (r.supplier == party && dateOkStr s e r.date) = false := by
            unfold dateOkStr
            rw [hd]
            simp [hr]
          rw [h1, h2, ih]
          simp
    · have h1 : purchaseRowEntry party s e r = none := by
        unfold purchaseRowEntry
        simp [hp]
      have h2 : (r.supplier == party && dateOkStr s e r.date) = false := by
        simp [hp]
      rw [h1, h2, ih]
      simp

theorem filterMap_suppPay (party : String) (s e : Date) :
    ∀ l : List SuppPayRow,
    l.filterMap (suppPayRowEntry party s e) =
      (l.filter (fun r => r.supplier == party && dateOkStr s e r.date)).map
        suppPayEntry := by
  intro l
  induction l with
  | nil => rfl
  | cons r t ih =>
    rw [List.filterMap_cons, List.filter_cons]
    by_cases hp : r.supplier == party
    · cases hd : parse_date r.date with
      | none =>
        have h1 : suppPayRowEntry party s e r = none := by
          unfold suppPayRowEntry
          rw [hd]
          simp [hp]
        have h2 : (r.supplier == party && dateOkStr s e r.date) = false := by
          unfold dateOkStr
          rw [hd]
          simp
        rw [h1, h2, ih]
        simp
      | some d =>
        by_cases hr : dateLe s d && dateLe d e
        · have h1 : suppPayRowEntry party s e r =
              some ⟨d, "Paid Supplier (" ++ r.mode ++ ")",
                clean_amount r.amount, 0⟩ := by
            unfold suppPayRowEntry
            rw [hd]
            simp [hp, hr]
          have h2 : (r.supplier == party && dateOkStr s e r.date) = true := by
            unfold dateOkStr
            rw [hd]
            simp [hp, hr]
          have h3 : suppPayEntry r =
              ⟨d, "Paid Supplier (" ++ r.mode ++ ")",
                clean_amount r.amount, 0⟩ := by
            unfold suppPayEntry
            rw [hd]
            rfl
          rw [h1, h2, ih]
          simp [h3]
        · have h1 : suppPayRowEntry party s e r = none := by
            unfold suppPayRowEntry
            rw [hd]
            simp [hp, hr]
          have h2 : (r.supplier == party && dateOkStr s e r.date) = false := by
            unfold dateOkStr
            rw [hd]
            simp [hr]
          rw [h1, h2, ih]
          simp
    · have h1 : suppPayRowEntry party s e r = none := by
        unfold suppPayRowEntry
        simp [hp]
      have h2 : (r.supplier == party && dateOkStr s e r.date) = false := by
        simp [hp]
      rw [h1, h2, ih]
      simp

/-- C7 (amended): the statement contains exactly (as a multiset) the
entries of the rows whose stored party/supplier cell equals the requested
party by plain string equality — the stored cell is NOT trimmed; only the
selection was trimmed upstream by extract_name_display — and whose date
parses into the inclusive range [s, e]. -/
theorem C7_amended_theorem (party : String) (s e : Date) (snap : Snapshot) :
    (screen_ledger_entries party s e snap).Perm
      ((snap.sales.filter
          (fun r => r.party == party && dateOkStr s e r.date)).map saleEntry ++
       (snap.receipts.filter
          (fun r => r.party == party && dateOkStr s e r.date)).map receiptEntry ++
       (snap.purchases.filter
          (fun r => r.supplier == party && dateOkStr s e r.date)).map purchaseEntry ++
       (snap.suppPayments.filter
          (fun r => r.supplier == party && dateOkStr s e r.date)).map suppPayEntry) := by
  unfold screen_ledger_entries
  refine (List.perm_insertionSort entryLe (ledger_rows party s e snap)).trans ?_
  unfold ledger_rows
  rw [filterMap_sale, filterMap_receipt, filterMap_purchase, filterMap_suppPay]

/-- Modelled from the claim's wording for C7: a sales row is claimed to
be included when its party field equals the requested party after
trimming surrounding whitespace on both, and its date is in range. -/
def claimed_sale_keep (party : String) (s e : Date) (r : SaleRow) : Bool :=
  (String.mk (pyStrip r.party.data) == String.mk (pyStrip party.data)) &&
  dateOkStr s e r.date

/-- Snapshot refuting C7 as stated: one in-range sale whose stored party
cell carries surrounding whitespace. -/
def snapC7 : Snapshot := ⟨[⟨"2024-01-05", " P1 ", "100"⟩], [], [], []⟩

/-- C7 counterexample: the claim's trimmed-equality rule admits the row
(count 1), but the build returns no entries: the code compares the
stored cell untrimmed. -/
theorem C7_counterexample :
    (snapC7.sales.filter
        (claimed_sale_keep "P1" ⟨2024, 1, 1⟩ ⟨2024, 12, 31⟩)).length = 1 ∧
    screen_ledger_entries "P1" ⟨2024, 1, 1⟩ ⟨2024, 12, 31⟩ snapC7 = [] ∧
    (screen_ledger_entries "P1" ⟨2024, 1, 1⟩ ⟨2024, 12, 31⟩ snapC7).length ≠
      (snapC7.sales.filter
        (claimed_sale_keep "P1" ⟨2024, 1, 1⟩ ⟨2024, 12, 31⟩)).length := by
  refine ⟨by decide, by decide, by decide⟩

/-- C6: every entry of a built statement is the tagging of some row of
the snapshot: a sale gives debit = amount, credit = 0; a receipt gives
debit = 0, credit = amount with the payment mode in the description; a
purchase gives debit = 0, credit = amount; a supplier payment gives
debit = amount, credit = 0. -/
theorem C6_theorem (party : String) (s e : Date) (snap : Snapshot)
    (en : Entry) (hen : en ∈ screen_ledger_entries party s e snap) :
    (∃ r, r ∈ snap.sales ∧ ∃ d, parse_date r.date = some d ∧
      en = ⟨d, "Sale", clean_amount r.amount, 0⟩) ∨
    (∃ r, r ∈ snap.receipts ∧ ∃ d, parse_date r.date = some d ∧
      en = ⟨d, "Rx (" ++ r.mode ++ ")", 0, clean_amount r.amount⟩) ∨
    (∃ r, r ∈ snap.purchases ∧ ∃ d, parse_date r.date = some d ∧
      en = ⟨d, "Purchase (" ++ r.items ++ ")", 0, clean_amount r.amount⟩) ∨
    (∃ r, r ∈ snap.suppPayments ∧ ∃ d, parse_date r.date = some d ∧
      en = ⟨d, "Paid Supplier (" ++ r.mode ++ ")", clean_amount r.amount, 0⟩) := by
  have hmem : en ∈ ledger_rows party s e snap :=
    ((List.perm_insertionSort entryLe (ledger_rows party s e snap)).mem_iff).mp hen
  unfold ledger_rows at hmem
  simp only [List.mem_append] at hmem
  rcases hmem with ((hs | hr) | hp3) | hp4
  · left
    rcases List.mem_filterMap.mp hs with ⟨r, hrmem, heq⟩
    refine ⟨r, hrmem, ?_⟩
    unfold saleRowEntry at heq
    by_cases hp2 : r.party == party
    · rw [if_pos hp2] at heq
      cases hd : parse_date r.date with
      | none =>
        simp only [hd] at heq
        exact absurd heq (by simp)
      | some d =>
        simp only [hd] at heq
        by_cases hc : dateLe s d && dateLe d e
        · rw [if_pos hc] at heq
          exact ⟨d, rfl, (Option.some.inj heq).symm⟩
        · rw [if_neg hc] at heq
          exact absurd heq (by simp)
    · rw [if_neg hp2] at heq
      exact absurd heq (by simp)
  · right; left
    rcases List.mem_filterMap.mp hr with ⟨r, hrmem, heq⟩
    refine ⟨r, hrmem, ?_⟩
    unfold receiptRowEntry at heq
    by_cases hp2 : r.party == party
    · rw [if_pos hp2] at heq
      cases hd : parse_date r.date with
      | none =>
        simp only [hd] at heq
        exact absurd heq (by simp)
      | some d =>
        simp only [hd] at heq
        by_cases hc : dateLe s d && dateLe d e
        · rw [if_pos hc] at heq
          exact ⟨d, rfl, (Option.some.inj heq).symm⟩
        · rw [if_neg hc] at heq
          exact absurd heq (by simp)
    · rw [if_neg hp2] at heq
      exact absurd heq (by simp)
  · right; right; left
    rcases List.mem_filterMap.mp hp3 with ⟨r, hrmem, heq⟩
    refine ⟨r, hrmem, ?_⟩
    unfold purchaseRowEntry at heq
    by_cases hp2 : r.supplier == party
    · rw [if_pos hp2] at heq
      cases hd : parse_date r.date with
      | none =>
        simp only [hd] at heq
        exact absurd heq (by simp)
      | some d =>
        simp only [hd] at heq
        by_cases hc : dateLe s d && dateLe d e
        · rw [if_pos hc] at heq
          exact ⟨d, rfl, (Option.some.inj heq).symm⟩
        · rw [if_neg hc] at heq
          exact absurd heq (by simp)
    · rw [if_neg hp2] at heq
      exact absurd heq (by simp)
  · right; right; right
    rcases List.mem_filterMap.mp hp4 with ⟨r, hrmem, heq⟩
    refine ⟨r, hrmem, ?_⟩
    unfold suppPayRowEntry at heq
    by_cases hp2 : r.supplier == party
    · rw [if_pos hp2] at heq
      cases hd : parse_date r.date with
      | none =>
        simp only [hd] at heq
        exact absurd heq (by simp)
      | some d =>
        simp only [hd] at heq
        by_cases hc : dateLe s d && dateLe d e
        · rw [if_pos hc] at heq
          exact ⟨d, rfl, (Option.some.inj heq).symm⟩
        · rw [if_neg hc] at heq
          exact absurd heq (by simp)
    · rw [if_neg hp2] at heq
      exact absurd heq (by simp)

/-- C8: adding a transaction row whose date string does not parse leaves
the built statement and its balance unchanged, for every party and every
date range: such rows are treated as outside every range, and the build
is a total function (nothing is thrown). -/
theorem C8_theorem (party : String) (s e : Date) (snap : Snapshot)
    (r1 : SaleRow) (r2 : ReceiptRow) (r3 : PurchaseRow) (r4 : SuppPayRow)
    (h1 : parse_date r1.date = none) (h2 : parse_date r2.date = none)
    (h3 : parse_date r3.date = none) (h4 : parse_date r4.date = none) :
    screen_ledger_entries party s e
        ⟨r1 :: snap.sales, r2 :: snap.receipts, r3 :: snap.purchases,
          r4 :: snap.suppPayments⟩ =
      screen_ledger_entries party s e snap ∧
    screen_ledger_balance party s e
        ⟨r1 :: snap.sales, r2 :: snap.receipts, r3 :: snap.purchases,
          r4 :: snap.suppPayments⟩ =
      screen_ledger_balance party s e snap := by
  have e1 : saleRowEntry party s e r1 = none := by
    unfold saleRowEntry
    rw [h1]
    simp
  have e2 : receiptRowEntry party s e r2 = none := by
    unfold receiptRowEntry
    rw [h2]
    simp
  have e3 : purchaseRowEntry party s e r3 = none := by
    unfold purchaseRowEntry
    rw [h3]
    simp
  have e4 : suppPayRowEntry party s e r4 = none := by
    unfold suppPayRowEntry
    rw [h4]
    simp
  have hrows : ledger_rows party s e
      ⟨r1 :: snap.sales, r2 :: snap.receipts, r3 :: snap.purchases,
        r4 :: snap.suppPayments⟩ = ledger_rows party s e snap := by
    unfold ledger_rows
    simp only [List.filterMap_cons, e1, e2, e3, e4]
  constructor
  · unfold screen_ledger_entries
    rw [hrows]
  · unfold screen_ledger_balance screen_ledger_entries
    rw [hrows]

/-- Scenario snapshot from the spec: one sale of 1000 on 2024-01-05,
one receipt of 400 on 2024-01-10, both for party P1. -/
def snapB : Snapshot :=
  ⟨[⟨"2024-01-05", "P1", "1000"⟩], [⟨"2024-01-10", "P1", "400", "UPI"⟩],
    [], []⟩

def dJan1 : Date := ⟨2024, 1, 1⟩

def dJan31 : Date := ⟨2024, 1, 31⟩

theorem C5_witness :
    screen_ledger_entries "P1" dJan1 dJan31 snapB ≠ [] ∧
    screen_ledger_balance "P1" dJan1 dJan31 snapB =
      ((screen_ledger_entries "P1" dJan1 dJan31 snapB).map Entry.dr).sum -
        ((screen_ledger_entries "P1" dJan1 dJan31 snapB).map Entry.cr).sum ∧
    (running_bals 0 (screen_ledger_entries "P1" dJan1 dJan31 snapB)).get
        ⟨0, by decide⟩ =
      (((screen_ledger_entries "P1" dJan1 dJan31 snapB).take 1).map
        (fun r => r.dr - r.cr)).sum ∧
    (running_bals 0 (screen_ledger_entries "P1" dJan1 dJan31 snapB)).getLast
        (running_bals_ne_nil (by decide) 0) =
      screen_ledger_balance "P1" dJan1 dJan31 snapB :=
  ⟨by decide, ( C5_theorem "P1" dJan1 dJan31 snapB).1,
    ( C5_theorem "P1" dJan1 dJan31 snapB).2.1 0 (by decide),
    ( C5_theorem "P1" dJan1 dJan31 snapB).2.2.1 (by decide)⟩

theorem C6_witness :
    (⟨⟨2024, 1, 5⟩, "Sale", 1000, 0⟩ : Entry) ∈
        screen_ledger_entries "P1" dJan1 dJan31 snapB ∧
    ((∃ r, r ∈ snapB.sales ∧ ∃ d, parse_date r.date = some d ∧
        (⟨⟨2024, 1, 5⟩, "Sale", 1000, 0⟩ : Entry) =
          ⟨d, "Sale", clean_amount r.amount, 0⟩) ∨
     (∃ r, r ∈ snapB.receipts ∧ ∃ d, parse_date r.date = some d ∧
        (⟨⟨2024, 1, 5⟩, "Sale", 1000, 0⟩ : Entry) =
          ⟨d, "Rx (" ++ r.mode ++ ")", 0, clean_amount r.amount⟩) ∨
     (∃ r, r ∈ snapB.purchases ∧ ∃ d, parse_date r.date = some d ∧
        (⟨⟨2024, 1, 5⟩, "Sale", 1000, 0⟩ : Entry) =
          ⟨d, "Purchase (" ++ r.items ++ ")", 0, clean_amount r.amount⟩) ∨
     (∃ r, r ∈ snapB.suppPayments ∧ ∃ d, parse_date r.date = some d ∧
        (⟨⟨2024, 1, 5⟩, "Sale", 1000, 0⟩ : Entry) =
          ⟨d, "Paid Supplier (" ++ r.mode ++ ")", clean_amount r.amount, 0⟩)) :=
  ⟨by decide, C6_theorem "P1" dJan1 dJan31 snapB _ (by decide)⟩

/-- Snapshot for the C8 witness. -/
def snapC8 : Snapshot := ⟨[⟨"2024-01-05", "P1", "1000"⟩], [], [], []⟩

theorem C8_witness :
    parse_date "soon" = none ∧
    screen_ledger_entries "P1" dJan1 dJan31
        ⟨(⟨"soon", "P1", "50"⟩ : SaleRow) :: snapC8.sales,
          (⟨"soon", "P1", "60", "Cash"⟩ : ReceiptRow) :: snapC8.receipts,
          (⟨"soon", "P1", "goods", "70"⟩ : PurchaseRow) :: snapC8.purchases,
          (⟨"soon", "P1", "80", "UPI"⟩ : SuppPayRow) :: snapC8.suppPayments⟩ =
      screen_ledger_entries "P1" dJan1 dJan31 snapC8 :=
  ⟨by decide,
    ( C8_theorem "P1" dJan1 dJan31 snapC8 ⟨"soon", "P1", "50"⟩
      ⟨"soon", "P1", "60", "Cash"⟩ ⟨"soon", "P1", "goods", "70"⟩
      ⟨"soon", "P1", "80", "UPI"⟩ (by decide) (by decide) (by decide)
      (by decide)).1⟩

/-! ## Market position aggregator: claims about screen_home (C1) -/

/-- A conditional accumulation of positive values is the sum of the
positive values over the filtered list. -/
theorem foldl_pos_filter (f : String → ℚ) :
    ∀ (l : List String) (acc : ℚ),
      l.foldl (fun a p => if 0 < f p then a + f p else a) acc =
        acc + ((l.filter (fun p => decide (0 < f p))).map f).sum := by
  intro l
  induction l with
  | nil =>
    intro acc
    simp
  | cons p t ih =>
    intro acc
    rw [List.foldl_cons, List.filter_cons]
    simp only [decide_eq_true_eq]
    by_cases hp : 0 < f p
    · rw [if_pos hp, if_pos hp, ih]
      simp only [List.map_cons, List.sum_cons]
      ring
    · rw [if_neg hp, if_neg hp, ih]

/-- Modelled from the claim's wording (C1): totalReceivable should equal
the sum, over exactly those customers whose sales-minus-receipts balance
is strictly positive, of that positive difference. -/
def receivableSpec (dues : List SaleRow) (pymt : List ReceiptRow) : ℚ :=
  (((custIndex dues pymt).filter
      (fun p => decide (0 < salesSumFor dues p - receiptsSumFor pymt p))).map
    (fun p => salesSumFor dues p - receiptsSumFor pymt p)).sum

/-- Modelled from the claim's wording (C1): totalPayable should equal
the sum, over exactly those suppliers whose purchases-minus-payments
balance is strictly positive, of that positive difference. -/
def payableSpec (goods : List PurchaseRow) (spay : List SuppPayRow) : ℚ :=
  (((suppIndex goods spay).filter
      (fun p => decide (0 < purchasesSumFor goods p - paidOutSumFor spay p))).map
    (fun p => purchasesSumFor goods p - paidOutSumFor spay p)).sum

/-- C1 (amended): the claimed positive-balance sum identity for
totalReceivable holds whenever both the sales and the receipts
collections are nonempty, and symmetrically for totalPayable with the
purchases and supplier-payment collections; when either collection of a
leg is empty that leg's total is 0 regardless of the data (the source
computes each leg only under `if not X.empty and not Y.empty`). -/
theorem C1_amended_theorem (dues : List SaleRow) (pymt : List ReceiptRow)
    (goods : List PurchaseRow) (spay : List SuppPayRow) :
    (dues ≠ [] → pymt ≠ [] →
      total_receivable dues pymt = receivableSpec dues pymt) ∧
    (dues = [] ∨ pymt = [] → total_receivable dues pymt = 0) ∧
    (goods ≠ [] → spay ≠ [] →
      total_payable goods spay = payableSpec goods spay) ∧
    (goods = [] ∨ spay = [] → total_payable goods spay = 0) := by
  refine ⟨?_, ?_, ?_, ?_⟩
  · intro hd hp
    unfold total_receivable
    rw [if_neg (by
      push_neg
      exact ⟨hd, hp⟩)]
    exact (foldl_pos_filter
        (fun p => salesSumFor dues p - receiptsSumFor pymt p)
        (custIndex dues pymt) 0).trans
      (by rw [zero_add]; rfl)
  · intro h
    unfold total_receivable
    rw [if_pos h]
  · intro hg hs
    unfold total_payable
    rw [if_neg (by
      push_neg
      exact ⟨hg, hs⟩)]
    exact (foldl_pos_filter
        (fun p => purchasesSumFor goods p - paidOutSumFor spay p)
        (suppIndex goods spay) 0).trans
      (by rw [zero_add]; rfl)
  · intro h
    unfold total_payable
    rw [if_pos h]

/-- Sales collection refuting C1 as stated: one customer owing 100, and
an empty receipts collection. -/
def duesC1 : List SaleRow := [⟨"01/01/2024", "P1", "100"⟩]

attribute [local semireducible] Rat.add Rat.sub Rat.mul Rat.inv in
theorem receivableSpec_duesC1_eval : receivableSpec duesC1 [] = 100 := by
  decide

/-- C1 counterexample: with sales present but no receipts rows at all,
the claimed identity demands totalReceivable = 100, but screen_home's
emptiness guard leaves it at 0. -/
theorem C1_counterexample :
    total_receivable duesC1 [] = 0 ∧
    receivableSpec duesC1 [] = 100 ∧
    total_receivable duesC1 [] ≠ receivableSpec duesC1 [] := by
  have h0 : total_receivable duesC1 [] = 0 := by
    unfold total_receivable
    exact if_pos (Or.inr rfl)
  refine ⟨h0, receivableSpec_duesC1_eval, ?_⟩
  rw [h0, receivableSpec_duesC1_eval]
  norm_num

/-- Receipts collection for the C1 witness. -/
def pymtC1 : List ReceiptRow := [⟨"02/01/2024", "P1", "30", "Cash"⟩]

theorem C1_witness :
    duesC1 ≠ [] ∧ pymtC1 ≠ [] ∧
    total_receivable duesC1 pymtC1 = receivableSpec duesC1 pymtC1 ∧
    total_receivable [] pymtC1 = 0 :=
  ⟨by decide, by decide,
    ( C1_amended_theorem duesC1 pymtC1 [] []).1 (by decide) (by decide),
    ( C1_amended_theorem [] pymtC1 [] []).2.1 (Or.inl rfl)⟩

/-! ## Amount normalizer claims (C3, C4) -/

/-- C3 counterexample: "-5" parses to the negative number -5 and
clean_amount returns it unchanged instead of the claimed 0. -/
theorem C3_counterexample :
    clean_amount "-5" = -5 ∧ clean_amount "-5" ≠ 0 := by
  refine ⟨by decide, by decide⟩

/-- C3 (amended): an input whose scrubbed remainder parses to a negative
number is returned as that negative value — clean_amount does not clamp
negatives to zero, so it alone does not establish amount >= 0; only
unparseable input is normalized to 0. -/
theorem C3_amended_theorem (s : String) (q : ℚ) (hq : q < 0)
    (h : pyFloat (stripTokens s) = some q) :
    clean_amount s = q ∧ clean_amount s < 0 := by
  unfold clean_amount
  rw [h]
  exact ⟨rfl, hq⟩

theorem C3_witness :
    ((-5 : ℚ) < 0 ∧ pyFloat (stripTokens "-5") = some (-5)) ∧
    clean_amount "-5" = -5 ∧ clean_amount "-5" < 0 :=
  ⟨⟨by norm_num, by decide⟩,
    C3_amended_theorem "-5" (-5) (by norm_num) (by decide)⟩

attribute [local semireducible] Rat.add Rat.sub Rat.mul Rat.inv Rat.ofScientific in
theorem clean_amount_rupee_eval : clean_amount "₹1,250.50" = 1250.5 := by
  decide

attribute [local semireducible] Rat.add Rat.sub Rat.mul Rat.inv Rat.ofScientific in
theorem pyFloat_rupee_eval :
    pyFloat (stripTokens "₹1,250.50") = some 1250.5 := by
  decide

/-- C4: clean_amount deletes every "," then "₹" then "Rs" occurrence and
strips surrounding whitespace (stripTokens); when the remainder parses
as a decimal it returns exactly that value, otherwise — including the
empty string — it returns 0; being a total function into ℚ it never
raises. -/
theorem C4_theorem :
    (∀ (s : String) (q : ℚ),
      pyFloat (stripTokens s) = some q → clean_amount s = q) ∧
    (∀ s : String, pyFloat (stripTokens s) = none → clean_amount s = 0) ∧
    clean_amount "₹1,250.50" = 1250.5 ∧
    clean_amount "abc" = 0 ∧
    clean_amount "" = 0 := by
  refine ⟨?_, ?_, clean_amount_rupee_eval, by decide, by decide⟩
  · intro s q h
    unfold clean_amount
    rw [h]
  · intro s h
    unfold clean_amount
    rw [h]

theorem C4_witness :
    pyFloat (stripTokens "₹1,250.50") = some 1250.5 ∧
    clean_amount "₹1,250.50" = 1250.5 ∧
    pyFloat (stripTokens "abc") = none ∧
    clean_amount "abc" = 0 :=
  ⟨pyFloat_rupee_eval, C4_theorem.1 "₹1,250.50" 1250.5 pyFloat_rupee_eval,
    by decide, C4_theorem.2.1 "abc" (by decide)⟩

/-! ## Date normalizer claim (C2) -/

/-- C2 (evidence for the code bug): parse_date calls pd.to_datetime
without dayfirst=True, whose default is month-first, so the valid
DD/MM/YYYY string "05/01/2024" comes back as May 1, 2024 — not
5 January 2024 as the day-first contract (and every other date-parsing
call in the app, which passes dayfirst=True) requires.  Day-first
interpretation only happens as dateutil's fallback when the first
component cannot be a month ("13/01/2024"), and unparseable input still
returns none without raising. -/
theorem C2_code_eval :
    parse_date "05/01/2024" = some ⟨2024, 5, 1⟩ ∧
    parse_date "05/01/2024" ≠ some ⟨2024, 1, 5⟩ ∧
    parse_date "13/01/2024" = some ⟨2024, 1, 13⟩ ∧
    parse_date "garbage" = none := by
  refine ⟨by decide, by decide, by decide, by decide⟩

/-! ## get_next_code lemmas (C10) -/

theorem digitChar_isDigit (k : Nat) (h : k < 10) :
    isDigitCh (Char.ofNat (48 + k)) = true := by
  interval_cases k <;> decide

theorem digitChar_val (k : Nat) (h : k < 10) :
    (Char.ofNat (48 + k)).toNat = 48 + k := by
  interval_cases k <;> decide

theorem natDigitsF_all_digit : ∀ (fuel n : Nat), n < fuel →
    ∀ c ∈ natDigitsF fuel n, isDigitCh c = true := by
  intro fuel
  induction fuel with
  | zero =>
    intro n h
    omega
  | succ f ih =>
    intro n h c hc
    unfold natDigitsF at hc
    by_cases h10 : n < 10
    · rw [if_pos h10] at hc
      simp only [List.mem_singleton] at hc
      subst hc
      exact digitChar_isDigit n h10
    · rw [if_neg h10] at hc
      rcases List.mem_append.mp hc with hc1 | hc2
      · exact ih (n / 10) (by omega) c hc1
      · simp only [List.mem_singleton] at hc2
        subst hc2
        exact digitChar_isDigit (n % 10) (Nat.mod_lt _ (by omega))

theorem natDigitsF_ne_nil (fuel n : Nat) (h : n < fuel) :
    natDigitsF fuel n ≠ [] := by
  cases fuel with
  | zero => omega
  | succ f =>
    unfold natDigitsF
    by_cases h10 : n < 10
    · rw [if_pos h10]
      simp
    · rw [if_neg h10]
      simp

theorem decVal_append (l : List Char) (c : Char) :
    decVal (l ++ [c]) = decVal l * 10 + (c.toNat - 48) := by
  unfold decVal
  rw [List.foldl_append]
  rfl

theorem decVal_natDigitsF : ∀ (fuel n : Nat), n < fuel →
    decVal (natDigitsF fuel n) = n := by
  intro fuel
  induction fuel with
  | zero =>
    intro n h
    omega
  | succ f ih =>
    intro n h
    unfold natDigitsF
    by_cases h10 : n < 10
    · rw [if_pos h10]
      show 0 * 10 + ((Char.ofNat (48 + n)).toNat - 48) = n
      rw [digitChar_val n h10]
      omega
    · rw [if_neg h10, decVal_append, ih (n / 10) (by omega),
        digitChar_val (n % 10) (Nat.mod_lt _ (by omega))]
      omega

theorem takeWhile_all {p : Char → Bool} :
    ∀ l : List Char, (∀ c ∈ l, p c = true) → l.takeWhile p = l := by
  intro l
  induction l with
  | nil => intro _; rfl
  | cons c t ih =>
    intro h
    rw [List.takeWhile_cons, h c (by simp)]
    simp [ih (fun x hx => h x (by simp [hx]))]

theorem firstNum_cons (c : Char) (rest : List Char) :
    firstNum (c :: rest) =
      if isDigitCh c then some (decVal ((c :: rest).takeWhile isDigitCh))
      else firstNum rest := rfl

theorem firstNum_append_nodigit :
    ∀ (p t : List Char), (∀ c ∈ p, isDigitCh c = false) →
      firstNum (p ++ t) = firstNum t := by
  intro p
  induction p with
  | nil =>
    intro t _
    rfl
  | cons c cs ih =>
    intro t h
    show firstNum (c :: (cs ++ t)) = firstNum t
    rw [firstNum_cons, h c (by simp)]
    simp only [Bool.false_eq_true, if_false]
    exact ih t (fun x hx => h x (by simp [hx]))

theorem firstNum_digits (l : List Char) (hne : l ≠ [])
    (hall : ∀ c ∈ l, isDigitCh c = true) :
    firstNum l = some (decVal l) := by
  cases l with
  | nil => exact absurd rfl hne
  | cons c cs =>
    rw [firstNum_cons, hall c (by simp)]
    simp only [if_true]
    rw [takeWhile_all _ hall]

theorem dropWhile_head_eq_self {p : Char → Bool} (l : List Char)
    (h : ∀ c ∈ l.take 1, p c = false) : l.dropWhile p = l := by
  cases l with
  | nil => rfl
  | cons c t =>
    have hc : p c = false := h c (by simp)
    simp [List.dropWhile_cons, hc]

theorem pyStrip_eq_self (l : List Char)
    (h1 : ∀ c ∈ l.take 1, isSpaceCh c = false)
    (h2 : ∀ c ∈ l.reverse.take 1, isSpaceCh c = false) : pyStrip l = l := by
  unfold pyStrip
  rw [dropWhile_head_eq_self l h1, dropWhile_head_eq_self l.reverse h2,
    List.reverse_reverse]

theorem digit_not_space {c : Char} (h : isDigitCh c = true) :
    isSpaceCh c = false := by
  by_contra hsp
  rw [Bool.not_eq_false] at hsp
  unfold isSpaceCh at hsp
  simp only [Bool.or_eq_true, decide_eq_true_eq] at hsp
  rcases hsp with ((((h1 | h2) | h3) | h4) | h5) | h6 <;> subst_vars <;>
    exact absurd h (by decide)

theorem upChar_digit {c : Char} (h : isDigitCh c = true) : upChar c = c := by
  unfold isDigitCh at h
  simp only [Bool.and_eq_true, decide_eq_true_eq] at h
  unfold upChar
  rw [if_neg]
  intro hcon
  simp only [Bool.and_eq_true, decide_eq_true_eq] at hcon
  omega

theorem pyUpper_digits {ds : List Char}
    (h : ∀ c ∈ ds, isDigitCh c = true) : pyUpper ds = ds := by
  unfold pyUpper
  induction ds with
  | nil => rfl
  | cons c t ih =>
    rw [List.map_cons, upChar_digit (h c (by simp)),
      ih (fun x hx => h x (by simp [hx]))]

theorem code_step_ge (pfx : String) (acc : Nat) (code : String) :
    acc ≤ code_step pfx acc code := by
  unfold code_step
  by_cases hp : pfx.data.isPrefixOf (code_norm code)
  · rw [if_pos hp]
    cases hf : firstNum (code_norm code) with
    | none => exact le_refl _
    | some n =>
      by_cases hlt : acc < n
      · simp only [if_pos hlt]
        omega
      · simp only [if_neg hlt]
        omega
  · rw [if_neg hp]

theorem code_fold_mono (pfx : String) :
    ∀ (codes : List String) (acc : Nat),
      acc ≤ codes.foldl (code_step pfx) acc := by
  intro codes
  induction codes with
  | nil =>
    intro acc
    exact le_refl _
  | cons c t ih =>
    intro acc
    rw [List.foldl_cons]
    exact le_trans (code_step_ge pfx acc c) (ih _)

theorem code_fold_ge (pfx : String) :
    ∀ (codes : List String) (acc : Nat) (c : String), c ∈ codes →
      pfx.data.isPrefixOf (code_norm c) = true →
      ∀ n, firstNum (code_norm c) = some n →
        n ≤ codes.foldl (code_step pfx) acc := by
  intro codes
  induction codes with
  | nil =>
    intro acc c hc
    exact absurd hc (List.not_mem_nil _)
  | cons p t ih =>
    intro acc c hc hpref n hfn
    rw [List.foldl_cons]
    rcases List.mem_cons.mp hc with hcp | hct
    · subst hcp
      have hstep : n ≤ code_step pfx acc c := by
        unfold code_step
        rw [if_pos hpref, hfn]
        by_cases hlt : acc < n
        · simp only [if_pos hlt]
          omega
        · simp only [if_neg hlt]
          omega
      exact le_trans hstep (code_fold_mono pfx t _)
    · exact ih _ c hct hpref n hfn

/-- C10: get_next_code returns the prefix followed by the decimal
rendering of one more than the largest number carried by any existing
code that (after strip and upper-casing) starts with the prefix — the
number of a code being its first maximal digit run, as re.search
extracts it — so the fresh number strictly exceeds every matching code's
number, and the fresh code is distinct up to strip/upper-casing from
every matching digit-bearing code.  Hypotheses: the prefix (here always
"R" or "S") contains no digits and no whitespace and is unchanged by
upper-casing. -/
theorem C10_theorem (codes : List String) (pfx : String)
    (hnd : ∀ c ∈ pfx.data, isDigitCh c = false)
    (hns : ∀ c ∈ pfx.data, isSpaceCh c = false)
    (hu : pyUpper pfx.data = pfx.data) :
    get_next_code codes pfx =
      pfx ++ String.mk (natDigits (max_code_num codes pfx + 1)) ∧
    (∀ c ∈ codes, pfx.data.isPrefixOf (code_norm c) = true →
      ∀ n, firstNum (code_norm c) = some n →
        n < max_code_num codes pfx + 1) ∧
    (∀ c ∈ codes, pfx.data.isPrefixOf (code_norm c) = true →
      ∀ n, firstNum (code_norm c) = some n →
        code_norm (get_next_code codes pfx) ≠ code_norm c) := by
  have hDdig : ∀ c ∈ natDigits (max_code_num codes pfx + 1),
      isDigitCh c = true :=
    natDigitsF_all_digit _ _ (by omega)
  have hDne : natDigits (max_code_num codes pfx + 1) ≠ [] :=
    natDigitsF_ne_nil _ _ (by omega)
  have hval : decVal (natDigits (max_code_num codes pfx + 1)) =
      max_code_num codes pfx + 1 :=
    decVal_natDigitsF _ _ (by omega)
  have hnospace : ∀ c ∈ pfx.data ++ natDigits (max_code_num codes pfx + 1),
      isSpaceCh c = false := by
    intro c hc
    rcases List.mem_append.mp hc with h | h
    · exact hns c h
    · exact digit_not_space (hDdig c h)
  have hstrip : pyStrip (pfx.data ++ natDigits (max_code_num codes pfx + 1)) =
      pfx.data ++ natDigits (max_code_num codes pfx + 1) :=
    pyStrip_eq_self _
      (fun c hc => hnospace c (List.mem_of_mem_take hc))
      (fun c hc => hnospace c (List.mem_reverse.mp (List.mem_of_mem_take hc)))
  have hupper : pyUpper (pfx.data ++ natDigits (max_code_num codes pfx + 1)) =
      pfx.data ++ natDigits (max_code_num codes pfx + 1) := by
    unfold pyUpper
    rw [List.map_append]
    show pyUpper pfx.data ++ pyUpper (natDigits (max_code_num codes pfx + 1)) =
      _
    rw [hu, pyUpper_digits hDdig]
  have hcn : code_norm (get_next_code codes pfx) =
      pfx.data ++ natDigits (max_code_num codes pfx + 1) := by
    have hdata : (get_next_code codes pfx).data =
        pfx.data ++ natDigits (max_code_num codes pfx + 1) := rfl
    unfold code_norm
    rw [hdata, hstrip, hupper]
  have hfn_ret : firstNum (pfx.data ++ natDigits (max_code_num codes pfx + 1)) =
      some (max_code_num codes pfx + 1) := by
    rw [firstNum_append_nodigit pfx.data _ hnd,
      firstNum_digits _ hDne hDdig, hval]
  refine ⟨rfl, ?_, ?_⟩
  · intro c hc hpref n hfn
    have hle : n ≤ max_code_num codes pfx :=
      code_fold_ge pfx codes 0 c hc hpref n hfn
    omega
  · intro c hc hpref n hfn heq
    rw [hcn] at heq
    have h1 : firstNum (code_norm c) = some (max_code_num codes pfx + 1) := by
      rw [← heq, hfn_ret]
    rw [hfn] at h1
    have hn : n = max_code_num codes pfx + 1 := Option.some.inj h1
    have hle : n ≤ max_code_num codes pfx :=
      code_fold_ge pfx codes 0 c hc hpref n hfn
    omega

theorem C10_witness :
    ((∀ c ∈ ("R" : String).data, isDigitCh c = false) ∧
     (∀ c ∈ ("R" : String).data, isSpaceCh c = false) ∧
     pyUpper ("R" : String).data = ("R" : String).data) ∧
    get_next_code ["R1", "r2 ", "S9", "X"] "R" =
      "R" ++ String.mk (natDigits (max_code_num ["R1", "r2 ", "S9", "X"] "R" + 1)) ∧
    get_next_code ["R1", "r2 ", "S9", "X"] "R" = "R3" ∧
    code_norm (get_next_code ["R1", "r2 ", "S9", "X"] "R") ≠ code_norm "r2 " :=
  ⟨⟨by decide, by decide, by decide⟩,
    ( C10_theorem ["R1", "r2 ", "S9", "X"] "R" (by decide) (by decide)
      (by decide)).1,
    by decide,
    ( C10_theorem ["R1", "r2 ", "S9", "X"] "R" (by decide) (by decide)
      (by decide)).2.2 "r2 " (by decide) (by decide) 2 (by decide)⟩

end Pharma
